import Mathlib

/-!
# Verification of the TDNET monitor core logic

A shallow embedding, in Lean 4, of the core data-processing logic of the
`tdnet-monitor` repository (three Streamlit dashboard scripts):

* `app.py` — the full dashboard: the Yanoshin TDnet listing aggregator
  (`fetch_tdnet_list`), the title classifier with its four ordered keyword
  sets, the J-Quants quarterly reconciler inside `fetch_market_data`, the
  yfinance dividend-yield guard, and the `RateLimiter`.
* `app_backup.py` — the simple viewer: `fetch_yanoshin_disclosures`
  (trailing-window fetch, URL dedup, per-company filter, the reversed
  keyword precedence) and `search_company_by_name`.

Modelling conventions:

* Python strings are Lean `String`s; `kw in title` (substring test) is
  `pyIn`, defined through `List.IsInfix` on the character lists, and
  `strip`/`[:4]`/`lower`/`zfill` are char-list operations mirroring the
  Python ones (Python's `lower` is full-Unicode, `Char.toLower` is ASCII;
  none of the claims depend on non-ASCII case folding).
* Network fetches and JSON decoding are impure boundaries: each fetching
  function takes an `Option` (or list-of-batches) argument standing for the
  already-decoded payload, `none` meaning the fetch raised/failed.  The
  pure remainder of each Python function is translated verbatim.
* J-Quants metric amounts (`Sales`, `OP`, `OdP`, `NP`) are integer yen
  (`ℤ`); Python's `int(x / 1_000_000)` on such an amount is exact rational
  division truncated toward zero, i.e. `Int.tdiv x 1000000`, and Python 3's
  `round` is round-half-to-even.
* Timestamps of the rate limiter are elements of an arbitrary linear
  ordered commutative ring: the limiter only adds, subtracts and compares
  times, so this covers the real-valued behaviour and stays executable.
-/

namespace TdnetMonitor

/-- Python's substring containment `pat in s`. -/
def pyIn (pat s : String) : Bool := decide (pat.toList <:+: s.toList)

/-- `any(kw in title for kw in kws)` — does any keyword occur in `title`? -/
def anyKw (kws : List String) (title : String) : Bool :=
  kws.any (fun kw => pyIn kw title)

/-- ASCII whitespace recognised by Python's `str.strip()` (the subset that
can occur in the feeds' code fields). -/
def isSpaceChar (c : Char) : Bool := c = ' ' ∨ c = '\t' ∨ c = '\n' ∨ c = '\r'

/-- Python `s.strip()`. -/
def pyStrip (s : String) : String :=
  ⟨((s.toList.dropWhile isSpaceChar).reverse.dropWhile isSpaceChar).reverse⟩

/-- Python `s[:n]` (by code points). -/
def pyTake (n : Nat) (s : String) : String := ⟨s.toList.take n⟩

/-- Python `s.lower()` (ASCII case folding). -/
def pyLower (s : String) : String := ⟨s.toList.map Char.toLower⟩

/-- Python `s.zfill(n)` on an unsigned digit string. -/
def pyZfill (n : Nat) (s : String) : String :=
  ⟨List.replicate (n - s.toList.length) '0' ++ s.toList⟩

/-- Python `int()` of the exact quotient `a / b` (`b > 0`): truncation
toward zero. -/
def pyIntDiv (a b : ℤ) : ℤ := Int.tdiv a b

/-- Python 3 `round()` of the exact quotient `a / b` (`b > 0`):
round half to even. -/
def pyRoundDiv (a b : ℤ) : ℤ :=
  let f := Int.fdiv a b
  let r := a - f * b
  if 2 * r < b then f
  else if b < 2 * r then f + 1
  else if f % 2 = 0 then f else f + 1

/-- Python 3 `round(q)` on a rational: round half to even. -/
def pyRound (q : ℚ) : ℤ :=
  let f := ⌊q⌋
  if q - f < 1 / 2 then f
  else if (1 : ℚ) / 2 < q - f then f + 1
  else if f % 2 = 0 then f else f + 1

/-- Python `round(q, 2)`: round half to even at two decimal places. -/
def pyRound2 (q : ℚ) : ℚ := (pyRound (q * 100) : ℚ) / 100

end TdnetMonitor

namespace TdnetMonitor.App

/-- One raw item of the Yanoshin TDnet daily listing, as consumed by
`fetch_tdnet_list` in `app.py` (`item.get(...)` fields, absent modelled as
`""` exactly as `item.get(k, "")` yields). -/
structure TdItem where
  company_code : String
  company_name : String
  title : String
  document_url : String
deriving DecidableEq

/-- `SUPPL_KW` from `app.py`. -/
def SUPPL_KW : List String :=
  ["補足", "補足説明", "補足資料", "補足情報", "参考資料",
   "データブック", "ファクトブック", "ファクトシート",
   "統計資料", "参考データ"]

/-- `REVISE_KW` from `app.py`. -/
def REVISE_KW : List String :=
  ["業績予想の修正", "業績修正", "上方修正", "下方修正",
   "予想の修正", "予想修正", "配当予想の修正", "配当修正",
   "通期業績予想", "業績予想",
   "見通しの修正", "見通し修正"]

/-- `EXPLAIN_KW` from `app.py`. -/
def EXPLAIN_KW : List String :=
  ["説明資料", "説明会", "決算説明", "プレゼンテーション",
   "プレゼン資料", "IR資料", "IR説明", "投資家向け",
   "アナリスト", "決算概況", "決算ハイライト",
   "業績ハイライト", "サマリー", "スライド",
   "概要資料", "要約", "決算資料"]

/-- `TANSHIN_KW` from `app.py`. -/
def TANSHIN_KW : List String :=
  ["決算短信", "四半期報告", "四半期決算", "中間決算",
   "通期決算", "連結決算", "個別決算",
   "決算概要", "決算発表",
   "Financial Results", "Financial Statements",
   "Earnings", "Annual Results",
   "有価証券報告", "半期報告"]

/-- The document categories of the full dashboard (the spec's
`DisclosureCategory` without `Other`; an unmatched title populates no
slot). -/
inductive Category
  | SupplementaryMaterial
  | GuidanceRevision
  | ExplanatoryMaterial
  | FinancialStatement
deriving DecidableEq

/-- The `if any(kw in title ...)` / `elif ...` classifier chain of
`fetch_tdnet_list` in `app.py`: 補足 → 業績修正 → 説明 → 決算短信. -/
def classify (title : String) : Option Category :=
  if anyKw SUPPL_KW title then some .SupplementaryMaterial
  else if anyKw REVISE_KW title then some .GuidanceRevision
  else if anyKw EXPLAIN_KW title then some .ExplanatoryMaterial
  else if anyKw TANSHIN_KW title then some .FinancialStatement
  else none

/-- The four keyword sets with their categories, in the order the code
checks them. -/
def orderedKeywordSets : List (Category × List String) :=
  [(.SupplementaryMaterial, SUPPL_KW),
   (.GuidanceRevision, REVISE_KW),
   (.ExplanatoryMaterial, EXPLAIN_KW),
   (.FinancialStatement, TANSHIN_KW)]

/-- The classifier as the spec describes it: the first of the ordered
keyword sets with a substring match in the title. -/
def classifySpec (title : String) : Option Category :=
  (orderedKeywordSets.find? (fun p => anyKw p.2 title)).map Prod.fst

/-- One row of `code_map` in `fetch_tdnet_list`: company code, name, and
one URL slot per category, `"-"` meaning absent. -/
structure Row where
  code : String
  name : String
  tanshin : String
  setsumei : String
  shusei : String
  hosoku : String
deriving DecidableEq

/-- The freshly initialised row (`code_map[code] = {...}` branch). -/
def Row.init (code name : String) : Row := ⟨code, name, "-", "-", "-", "-"⟩

/-- Read the URL slot of a category. -/
def Row.getCat (r : Row) : Category → String
  | .SupplementaryMaterial => r.hosoku
  | .GuidanceRevision => r.shusei
  | .ExplanatoryMaterial => r.setsumei
  | .FinancialStatement => r.tanshin

/-- `code_map[code][slot] = doc_url` — the unconditional slot assignment
the code performs after classification. -/
def Row.setCat (r : Row) (c : Category) (url : String) : Row :=
  match c with
  | .SupplementaryMaterial => { r with hosoku := url }
  | .GuidanceRevision => { r with shusei := url }
  | .ExplanatoryMaterial => { r with setsumei := url }
  | .FinancialStatement => { r with tanshin := url }

/-- `code_raw.strip()[:4] if code_raw else ""`. -/
def normCode (code_raw : String) : String :=
  if code_raw = "" then "" else pyTake 4 (pyStrip code_raw)

/-- Python-dict `code_map` as an insertion-ordered association list:
lookup of the (first) entry with the given key. -/
def lookupRow (m : List (String × Row)) (code : String) : Option Row :=
  (m.find? (fun p => p.1 = code)).map Prod.snd

/-- Replace the value stored under an existing key. -/
def updateRow (m : List (String × Row)) (code : String) (r : Row) :
    List (String × Row) :=
  m.map (fun p => if p.1 = code then (code, r) else p)

/-- One iteration of the `for item in items` loop of `fetch_tdnet_list`:
skip empty codes, initialise the row on first sight of a code, classify
the title, and assign the document URL to the matching slot
(unconditionally — the code has no presence check before the
assignment). -/
def stepRecord (m : List (String × Row)) (it : TdItem) : List (String × Row) :=
  let code := normCode it.company_code
  if code = "" then m
  else
    let m1 := match lookupRow m code with
      | some _ => m
      | none => m ++ [(code, Row.init code it.company_name)]
    match classify it.title with
    | none => m1
    | some c =>
      match lookupRow m1 code with
      | some r => updateRow m1 code (r.setCat c it.document_url)
      | none => m1

/-- The whole `for item in items` loop: fold the listing into `code_map`. -/
def buildRows (items : List TdItem) : List (String × Row) :=
  items.foldl stepRecord []

/-- The final filter of `fetch_tdnet_list`: keep companies with at least
one populated slot. -/
def rowHasDoc (r : Row) : Bool :=
  r.tanshin ≠ "-" ∨ r.setsumei ≠ "-" ∨ r.shusei ≠ "-" ∨ r.hosoku ≠ "-"

/-- `fetch_tdnet_list` after the HTTP boundary: `none` stands for a fetch
that raised (network error, non-2xx, `resp.json()` failure), in which case
the `except` branch returns an empty DataFrame; otherwise the decoded
`items` list is processed. -/
def fetch_tdnet_list (fetched : Option (List TdItem)) : List Row :=
  match fetched with
  | none => []
  | some items =>
    if items.isEmpty then []
    else
      let cm := buildRows items
      if cm.isEmpty then []
      else
        let cm2 := cm.filter (fun p => rowHasDoc p.2)
        if cm2.isEmpty then [] else cm2.map Prod.snd

/-- The dividend-yield computation of `fetch_market_data`
(`app.py` lines 316–318): `div_rate` and `price` are the `_safe_float`
results (`none` = missing or non-numeric); the guard is Python's
`if div_rate and price and price > 0`, so a zero rate or zero price is
falsy and skips the computation. -/
def divYield (div_rate price : Option ℚ) : Option ℚ :=
  match div_rate, price with
  | some r, some p =>
      if r ≠ 0 ∧ p ≠ 0 ∧ 0 < p then some (pyRound2 (r / p * 100)) else none
  | _, _ => none

/-- One row of the J-Quants financial summary as used by
`fetch_market_data`: disclosure date (`DiscDate`, dates are totally
ordered, modelled as `Nat`), current period type (`"1Q"|"2Q"|"3Q"|"FY"`),
current fiscal-year start (compared only for equality), and the four
metric columns in integer yen (`none` = absent or non-numeric, the
`_safe_float` failure cases). -/
structure FinSample where
  DiscDate : Nat
  CurPerType : String
  CurFYSt : String
  Sales : Option ℤ
  OP : Option ℤ
  OdP : Option ℤ
  NP : Option ℤ
deriving DecidableEq

/-- Stable insertion (descending `DiscDate`) — the
`sort_values("DiscDate", ascending=False)` step; ties keep their input
order. -/
def insertDesc (s : FinSample) : List FinSample → List FinSample
  | [] => [s]
  | t :: ts => if t.DiscDate < s.DiscDate then s :: t :: ts else t :: insertDesc s ts

/-- Sort by `DiscDate` descending. -/
def sortByDiscDateDesc (l : List FinSample) : List FinSample :=
  l.foldr insertDesc []

/-- The `drop_duplicates(subset=["CurPerType", "CurFYSt"], keep="first")`
key. -/
def dedupKey (s : FinSample) : String × String := (s.CurPerType, s.CurFYSt)

/-- Keep the first occurrence of each `(CurPerType, CurFYSt)` pair. -/
def dropDupGo (seen : List (String × String)) : List FinSample → List FinSample
  | [] => []
  | s :: rest =>
      if dedupKey s ∈ seen then dropDupGo seen rest
      else s :: dropDupGo (dedupKey s :: seen) rest

/-- `df_fin_sorted`: sort by `DiscDate` descending, then drop duplicate
`(CurPerType, CurFYSt)` pairs keeping the first (= latest disclosure). -/
def df_fin_sorted (l : List FinSample) : List FinSample :=
  dropDupGo [] (sortByDiscDateDesc l)

/-- Python `int(v / 1_000_000)` on an integer-yen amount. -/
def intMillions (v : ℤ) : ℤ := pyIntDiv v 1000000

/-- The `prev` computation of `fetch_market_data`: only for periods other
than `1Q`/`FY`, take the second entry of the same-fiscal-year slice of the
deduplicated sorted frame (whose first entry is `latest` itself). -/
def computePrev (ds : List FinSample) (latest : FinSample) : Option FinSample :=
  if latest.CurPerType = "1Q" ∨ latest.CurPerType = "FY" then none
  else
    let same_fy := ds.filter (fun s => s.CurFYSt = latest.CurFYSt)
    if 2 ≤ same_fy.length then same_fy.get? 1 else none

/-- The per-metric body of the `for col_out, col_jq in [...]` loop:
absent current metric → untouched (`none`); `1Q`/`FY` or no `prev` →
`int(cur/1e6)`; otherwise the delta when `prev`'s metric is numeric, and
the direct value when it is not. -/
def metricOut (period : String) (prev : Option FinSample)
    (getM : FinSample → Option ℤ) (latest : FinSample) : Option ℤ :=
  match getM latest with
  | none => none
  | some cur =>
    if period = "1Q" ∨ period = "FY" then some (intMillions cur)
    else
      match prev with
      | none => some (intMillions cur)
      | some pv =>
        match getM pv with
        | some prv => some (intMillions (cur - prv))
        | none => some (intMillions cur)

/-- The four quarterly output slots of a market-data row (`売上(Q)`,
`営業利益(Q)`, `経常利益(Q)`, `純利益(Q)`), `none` = `"-"`. -/
structure QuarterRow where
  sales : Option ℤ
  op : Option ℤ
  odp : Option ℤ
  np : Option ℤ
deriving DecidableEq

/-- The J-Quants reconciliation block of `fetch_market_data` for one
company, given its financial samples: `none` when the summary frame is
empty (the row keeps all `"-"`). -/
def reconcileQuarter (samples : List FinSample) : Option QuarterRow :=
  match df_fin_sorted samples with
  | [] => none
  | latest :: _ =>
    let prev := computePrev (df_fin_sorted samples) latest
    some ⟨metricOut latest.CurPerType prev FinSample.Sales latest,
          metricOut latest.CurPerType prev FinSample.OP latest,
          metricOut latest.CurPerType prev FinSample.OdP latest,
          metricOut latest.CurPerType prev FinSample.NP latest⟩

/-- The per-metric output as claim C1 (amended) states it, phrased on the
deduplicated sorted sample list `latest :: rest`: direct value for
`1Q`/`FY`; otherwise the delta against the latest-disclosed sample of the
same fiscal year among `rest` when it exists and its metric is numeric;
direct value as fallback; absent stays absent. -/
def metricPerClaim (latest : FinSample) (rest : List FinSample)
    (getM : FinSample → Option ℤ) : Option ℤ :=
  match getM latest with
  | none => none
  | some cur =>
    if latest.CurPerType = "1Q" ∨ latest.CurPerType = "FY" then
      some (intMillions cur)
    else
      match (rest.filter (fun s => s.CurFYSt = latest.CurFYSt)).head? with
      | none => some (intMillions cur)
      | some pv =>
        match getM pv with
        | some prv => some (intMillions (cur - prv))
        | none => some (intMillions cur)

/-- Does this item write the URL slot `(cd, c)` when processed: its
normalized code is `cd` (nonempty) and its title classifies into `c`? -/
def writesTo (cd : String) (c : Category) (it : TdItem) : Bool :=
  decide (normCode it.company_code = cd ∧ cd ≠ "" ∧ classify it.title = some c)

/-- Does this item target the row of (nonempty) code `cd` at all? -/
def mentionsCode (cd : String) (it : TdItem) : Bool :=
  decide (normCode it.company_code = cd ∧ cd ≠ "")

/-- The URL of the last record in fetch order that classified into
category `c` for code `cd`. -/
def lastWriteURL (items : List TdItem) (cd : String) (c : Category) :
    Option String :=
  ((items.filter (writesTo cd c)).getLast?).map TdItem.document_url

/-- The URL slot of category `c` in the row of code `cd`
(`none` = no row). -/
def rowSlot (m : List (String × Row)) (cd : String) (c : Category) :
    Option String :=
  (lookupRow m cd).map (fun r => r.getCat c)

/-- `RateLimiter.wait` (`app.py` lines 108–115), over any linearly
ordered commutative ring `K` of timestamps (the code only adds, subtracts
and compares times).  `ts` is `self.timestamps`, `now` the value of
`time.time()` on entry.  Returns the grant time (the `time.time()` value
recorded by the final `append`, idealising the sleep as exact and the
bookkeeping as instantaneous) and the new timestamp list.  The instance in
the code is `RateLimiter(max_calls=5, period=60)`. -/
def rlWait {K : Type} [LinearOrderedCommRing K] (ts : List K) (now : K) :
    K × List K :=
  let ts2 := ts.filter (fun t => decide (now - t < 60))
  if 5 ≤ ts2.length then
    let wait_sec := 60 - (now - ts2.headD 0) + 1
    (now + wait_sec, ts2 ++ [now + wait_sec])
  else (now, ts2 ++ [now])

/-- A sequential run of `wait` calls: from state `ts`, issue one call per
requested arrival time, returning the final state and the list of grant
(= recorded) times. -/
def rlRun {K : Type} [LinearOrderedCommRing K] (ts : List K) :
    List K → List K × List K
  | [] => (ts, [])
  | n :: ns =>
    let r := rlWait ts n
    let rest := rlRun r.2 ns
    (rest.1, r.1 :: rest.2)

/-- Admissibility of a sequence of arrival times: the caller is
single-threaded, so each call arrives no earlier than `lb` (initially any
lower bound, thereafter the previous call's grant time — the caller cannot
re-enter `wait` before `time.sleep` returns). -/
def rlAdmissible {K : Type} [LinearOrderedCommRing K] (lb : K) (ts : List K) :
    List K → Bool
  | [] => true
  | n :: ns => decide (lb ≤ n) && rlAdmissible (rlWait ts n).1 (rlWait ts n).2 ns

/-- Membership of a timestamp in the trailing half-open window
`(x, x + 60]` — the window notion the limiter itself uses (`wait` keeps
exactly the timestamps `t` with `now - t < 60`, i.e. those in
`(now - 60, now]`). -/
def inWindow {K : Type} [LinearOrderedCommRing K] (x : K) (t : K) : Bool :=
  decide (x < t ∧ t ≤ x + 60)

/-- Run invariant of the rate limiter.  `g` is the full history of grant
(= recorded) times, `ts` the current `self.timestamps`, `lb` a lower bound
on the next arrival (the last grant time).  The fields: `ts` is a suffix
of the history; every recorded time is at most `lb`; history entries
already dropped from `ts` are at least a full period older than `lb`; the
list never exceeds 6 entries, and when it has 6 its head is a full period
plus one second older than `lb`; the retained timestamps are sorted; and
no half-open 60-second window contains more than 5 recorded times. -/
structure RLInv {K : Type} [LinearOrderedCommRing K]
    (g ts : List K) (lb : K) : Prop where
  suff : ts <:+ g
  ub : ∀ t ∈ g, t ≤ lb
  far : ∀ pre, pre ++ ts = g → ∀ t ∈ pre, t + 60 ≤ lb
  lenle : ts.length ≤ 6
  six : ts.length = 6 → ts.headD 0 + 61 ≤ lb
  tsSorted : ts.Sorted (· ≤ ·)
  wnd : ∀ x : K, (g.filter (inWindow x)).length ≤ 5

end TdnetMonitor.App

namespace TdnetMonitor.Backup

/-- One raw TDnet item of the Yanoshin date endpoint as consumed by
`app_backup.py` (after the `item.get("Tdnet", item)` unwrap); absent
fields are `""`. -/
structure BItem where
  company_code : String
  company_name : String
  title : String
  document_url : String
  pubdate : String
deriving DecidableEq

/-- `KESSAN_KEYWORDS` from `app_backup.py`. -/
def KESSAN_KEYWORDS : List String := ["決算短信", "四半期決算短信"]

/-- `SETSUMAI_KEYWORDS` from `app_backup.py`. -/
def SETSUMAI_KEYWORDS : List String :=
  ["決算説明資料", "決算説明会資料", "決算説明会", "説明資料"]

/-- `HOSOKU_KEYWORDS` from `app_backup.py`. -/
def HOSOKU_KEYWORDS : List String := ["補足説明資料", "補足資料", "決算補足"]

/-- The category assignment of `fetch_yanoshin_disclosures`: default
`その他`, overridden by the first matching set in the order
決算短信 → 決算説明資料 → 補足説明資料. -/
def classifyB (title : String) : String :=
  if anyKw KESSAN_KEYWORDS title then "決算短信"
  else if anyKw SETSUMAI_KEYWORDS title then "決算説明資料"
  else if anyKw HOSOKU_KEYWORDS title then "補足説明資料"
  else "その他"

/-- The ordered keyword sets of the simple viewer with their category
labels. -/
def orderedKeywordSetsB : List (String × List String) :=
  [("決算短信", KESSAN_KEYWORDS),
   ("決算説明資料", SETSUMAI_KEYWORDS),
   ("補足説明資料", HOSOKU_KEYWORDS)]

/-- One element of the result list of `fetch_yanoshin_disclosures`. -/
structure Disclosure where
  title : String
  url : String
  datetime : String
  category : String
  company_name : String
deriving DecidableEq

/-- `stock_code.zfill(4) + "0"`. -/
def code5digit (stock_code : String) : String := pyZfill 4 stock_code ++ "0"

/-- The record built by the loop body for a kept item. -/
def mkDisclosure (it : BItem) : Disclosure :=
  ⟨it.title, it.document_url, it.pubdate, classifyB it.title, it.company_name⟩

/-- The `for item in all_items` loop of `fetch_yanoshin_disclosures`,
with `seen` = `seen_urls`: a record is skipped when its code differs from
the target, when its title or URL is empty, or when its URL was already
seen; otherwise it is classified and kept, and its URL recorded.  Note the
company filter runs before the URL dedup check. -/
def fyGo (code5 : String) (seen : List String) : List BItem → List Disclosure
  | [] => []
  | it :: rest =>
    if it.company_code ≠ code5 then fyGo code5 seen rest
    else if it.title = "" ∨ it.document_url = "" then fyGo code5 seen rest
    else if it.document_url ∈ seen then fyGo code5 seen rest
    else mkDisclosure it :: fyGo code5 (it.document_url :: seen) rest

/-- `fetch_yanoshin_disclosures` after the HTTP boundary: `dayBatches`
are the decoded item lists of the trailing window (today and the previous
2 days; a failed or undecodable day contributes an empty batch, matching
the `continue`), concatenated in fetch order.  `None` is returned when
nothing was fetched or nothing survives the filter. -/
def fetch_yanoshin_disclosures (stock_code : String)
    (dayBatches : List (List BItem)) : Option (List Disclosure) :=
  let all_items := dayBatches.flatten
  if all_items.isEmpty then none
  else
    let results := fyGo (code5digit stock_code) [] all_items
    if results.isEmpty then none else some results

/-- One candidate of `search_company_by_name`. -/
structure Candidate where
  code : String
  name : String
deriving DecidableEq

/-- Validity guard of the `search_company_by_name` loop:
`if not company_name or not company_code or len(company_code) < 4`. -/
def scValid (it : BItem) : Bool :=
  ¬(it.company_name = "" ∨ it.company_code = "" ∨ it.company_code.toList.length < 4)

/-- Case-insensitive substring match of the query against the company
name: `query.lower() in company_name.lower()`. -/
def scMatch (query : String) (it : BItem) : Bool :=
  pyIn (pyLower query) (pyLower it.company_name)

/-- The `for item in items` loop of `search_company_by_name`, with `seen`
= `seen_codes`: skip invalid records, skip records whose 4-character code
was already matched, and keep the record (recording its code) when the
query matches the name case-insensitively. -/
def scGo (query : String) (seen : List String) : List BItem → List Candidate
  | [] => []
  | it :: rest =>
    if ¬scValid it then scGo query seen rest
    else
      let code4 := pyTake 4 it.company_code
      if code4 ∈ seen then scGo query seen rest
      else if scMatch query it then
        ⟨code4, it.company_name⟩ :: scGo query (code4 :: seen) rest
      else scGo query seen rest

/-- `search_company_by_name` after the HTTP boundary: `none` stands for a
failed fetch or undecodable JSON (both return `[]` in the code); a decoded
payload of neither recognised shape yields the empty `items` list. -/
def search_company_by_name (query : String) (fetched : Option (List BItem)) :
    List Candidate :=
  match fetched with
  | none => []
  | some items => scGo query [] items

/-- The simple-viewer classifier as claim C9 phrases it: the first set of
the ordered list with a match, defaulting to `その他`. -/
def classifyBSpec (title : String) : String :=
  match orderedKeywordSetsB.find? (fun pr => anyKw pr.2 title) with
  | some pr => pr.1
  | none => "その他"

/-- Keep the first occurrence of each `document_url`. -/
def dedupByUrlKeepFirst (seen : List String) : List BItem → List BItem
  | [] => []
  | it :: rest =>
    if it.document_url ∈ seen then dedupByUrlKeepFirst seen rest
    else it :: dedupByUrlKeepFirst (it.document_url :: seen) rest

/-- The company-scoped pipeline in the order claim C7 states it
(modelled from the claim, to be compared against the code): concatenate
the window, deduplicate by document URL across the whole window first,
then filter to the target company. -/
def claimPipelineC7 (stock_code : String) (dayBatches : List (List BItem)) :
    List Disclosure :=
  ((dedupByUrlKeepFirst [] dayBatches.flatten).filter
      (fun it => it.company_code = code5digit stock_code)).map mkDisclosure

/-- The validity-and-nonempty filter the loop applies before the URL
dedup: target company, nonempty title and URL. -/
def fyKeeps (code5 : String) (it : BItem) : Bool :=
  decide (it.company_code = code5 ∧ ¬(it.title = "" ∨ it.document_url = ""))

/-- Keep the first occurrence of each 4-character code. -/
def dedupByCodeKeepFirst (seen : List String) : List BItem → List BItem
  | [] => []
  | it :: rest =>
    if pyTake 4 it.company_code ∈ seen then dedupByCodeKeepFirst seen rest
    else it :: dedupByCodeKeepFirst (pyTake 4 it.company_code :: seen) rest

/-- The resolver as claim C8 describes it: restrict the listing to valid
records whose name matches the query case-insensitively, keep the first
match per distinct normalized code preserving listing order, and emit
`(code, name)` pairs. -/
def resolveSpec (query : String) (items : List BItem) : List Candidate :=
  (dedupByCodeKeepFirst []
      (items.filter (fun it => scValid it && scMatch query it))).map
    (fun it => ⟨pyTake 4 it.company_code, it.company_name⟩)

end TdnetMonitor.Backup

namespace TdnetMonitor

/-- Precedence characterisation: the code's classifier chain returns
exactly the first ordered keyword set that matches. -/
theorem classify_eq_classifySpec (title : String) :
    App.classify title = App.classifySpec title := by
  unfold App.classify App.classifySpec App.orderedKeywordSets
  cases h1 : anyKw App.SUPPL_KW title <;>
    cases h2 : anyKw App.REVISE_KW title <;>
      cases h3 : anyKw App.EXPLAIN_KW title <;>
        cases h4 : anyKw App.TANSHIN_KW title <;>
          simp [List.find?, h1, h2, h3, h4]

/-- A witnessed keyword occurrence makes `anyKw` true. -/
theorem anyKw_of_mem {kws : List String} {title kw : String}
    (hm : kw ∈ kws) (hp : pyIn kw title = true) : anyKw kws title = true := by
  simp only [anyKw, List.any_eq_true]
  exact ⟨kw, hm, hp⟩

/-- Looking up in `m ++ [(code, r)]`: the appended entry is found exactly
when `m` has no entry for the key. -/
theorem lookupRow_append_one (m : List (String × App.Row)) (code cd : String)
    (r : App.Row) :
    App.lookupRow (m ++ [(code, r)]) cd =
      match App.lookupRow m cd with
      | some r0 => some r0
      | none => if cd = code then some r else none := by
  unfold App.lookupRow
  rw [List.find?_append]
  cases hf : List.find? (fun p => p.1 = cd) m with
  | some p => simp [Option.or]
  | none =>
    by_cases h : cd = code <;>
      simp [Option.or, List.find?, h, eq_comm (a := code) (b := cd)]

/-- Lookup on a cons cell. -/
theorem lookupRow_cons (q : String × App.Row) (m : List (String × App.Row))
    (cd : String) :
    App.lookupRow (q :: m) cd =
      if q.1 = cd then some q.2 else App.lookupRow m cd := by
  unfold App.lookupRow
  by_cases h : q.1 = cd <;> simp [List.find?_cons, h]

/-- Update on a cons cell. -/
theorem updateRow_cons (q : String × App.Row) (m : List (String × App.Row))
    (cd : String) (r : App.Row) :
    App.updateRow (q :: m) cd r =
      (if q.1 = cd then (cd, r) else q) :: App.updateRow m cd r := rfl

/-- Updating key `cd` rewrites the looked-up row exactly when it exists. -/
theorem lookupRow_updateRow_self (m : List (String × App.Row)) (cd : String)
    (r : App.Row) :
    App.lookupRow (App.updateRow m cd r) cd =
      (App.lookupRow m cd).map (fun _ => r) := by
  induction m with
  | nil => rfl
  | cons q m ih =>
    rw [updateRow_cons]
    by_cases h : q.1 = cd
    · rw [if_pos h, lookupRow_cons, lookupRow_cons, if_pos h]
      simp
    · rw [if_neg h, lookupRow_cons, lookupRow_cons, if_neg h, if_neg h]
      exact ih

/-- Updating key `cd` leaves other keys untouched. -/
theorem lookupRow_updateRow_ne (m : List (String × App.Row)) (cd cd2 : String)
    (r : App.Row) (h : cd2 ≠ cd) :
    App.lookupRow (App.updateRow m cd r) cd2 = App.lookupRow m cd2 := by
  induction m with
  | nil => rfl
  | cons q m ih =>
    rw [updateRow_cons]
    by_cases hq : q.1 = cd
    · rw [if_pos hq, lookupRow_cons, lookupRow_cons,
        if_neg (fun hc => h hc.symm),
        if_neg (fun hc => h ((hq.symm.trans hc).symm))]
      exact ih
    · rw [if_neg hq, lookupRow_cons, lookupRow_cons]
      by_cases hq2 : q.1 = cd2
      · rw [if_pos hq2, if_pos hq2]
      · rw [if_neg hq2, if_neg hq2]
        exact ih

/-- Writing a slot sets that slot. -/
theorem getCat_setCat_same (r : App.Row) (c : App.Category) (u : String) :
    (r.setCat c u).getCat c = u := by
  cases c <;> rfl

/-- Writing a slot leaves the other slots unchanged. -/
theorem getCat_setCat_other (r : App.Row) (c c2 : App.Category) (u : String)
    (h : c ≠ c2) : (r.setCat c2 u).getCat c = r.getCat c := by
  cases c <;> cases c2 <;> first | rfl | exact absurd rfl h

/-- A freshly initialised row has every slot absent. -/
theorem getCat_init (code name : String) (c : App.Category) :
    (App.Row.init code name).getCat c = "-" := by
  cases c <;> rfl

/-- `getLast?` of a cons, phrased as a fallback match. -/
theorem getLast?_cons_match {α : Type} (a : α) (l : List α) :
    (a :: l).getLast? =
      match l.getLast? with
      | some x => some x
      | none => some a := by
  rw [List.getLast?_cons]
  cases h : l.getLast? <;> simp [h]

/-- A writing record never has an empty normalized code. -/
theorem writesTo_mentions {cd : String} {c : App.Category} {it : App.TdItem}
    (h : App.writesTo cd c it = true) : App.mentionsCode cd it = true := by
  simp only [App.writesTo, decide_eq_true_eq] at h
  simp only [App.mentionsCode, decide_eq_true_eq]
  exact ⟨h.1, h.2.1⟩

/-- `lastWriteURL` unfolds over a cons: a writing head record is the
fallback behind later writers; a non-writing head is transparent. -/
theorem lastWriteURL_cons (it : App.TdItem) (items : List App.TdItem)
    (cd : String) (c : App.Category) :
    App.lastWriteURL (it :: items) cd c =
      if App.writesTo cd c it then
        match App.lastWriteURL items cd c with
        | some u => some u
        | none => some it.document_url
      else App.lastWriteURL items cd c := by
  unfold App.lastWriteURL
  by_cases h : App.writesTo cd c it = true
  · rw [if_pos h, List.filter_cons_of_pos h, getLast?_cons_match]
    cases hg : (items.filter (App.writesTo cd c)).getLast? <;> simp [hg]
  · rw [if_neg h, List.filter_cons_of_neg (by simpa using h)]

/-- Effect of one loop iteration on one URL slot: a record writing
`(cd, c)` sets the slot to its URL; a record merely targeting row `cd`
preserves an existing slot and materialises `"-"` otherwise; any other
record leaves the slot untouched. -/
theorem rowSlot_stepRecord (m : List (String × App.Row)) (it : App.TdItem)
    (cd : String) (c : App.Category) :
    App.rowSlot (App.stepRecord m it) cd c =
      if App.writesTo cd c it then some it.document_url
      else if App.mentionsCode cd it then
        match App.rowSlot m cd c with
        | some s => some s
        | none => some "-"
      else App.rowSlot m cd c := by
  by_cases hcode : App.normCode it.company_code = ""
  · have hw : App.writesTo cd c it = false := by
      simp only [App.writesTo, decide_eq_false_iff_not]
      rintro ⟨h1, hne, _⟩
      exact hne (h1 ▸ hcode ▸ rfl)
    have hm : App.mentionsCode cd it = false := by
      simp only [App.mentionsCode, decide_eq_false_iff_not]
      rintro ⟨h1, hne⟩
      exact hne (h1 ▸ hcode ▸ rfl)
    simp only [App.stepRecord, if_pos hcode, hw, hm, Bool.false_eq_true,
      if_false]
  · simp only [App.stepRecord, if_neg hcode]
    cases hcl : App.classify it.title with
    | none =>
      have hw : App.writesTo cd c it = false := by
        simp only [App.writesTo, decide_eq_false_iff_not]
        rintro ⟨_, _, h3⟩
        rw [hcl] at h3
        cases h3
      rw [hw]
      simp only [Bool.false_eq_true, if_false]
      by_cases hcd : cd = App.normCode it.company_code
      · rw [← hcd] at hcode ⊢
        have hm : App.mentionsCode cd it = true := by
          simp only [App.mentionsCode, decide_eq_true_eq]
          exact ⟨hcd.symm, hcode⟩
        rw [hm]
        simp only [if_true]
        cases hlm : App.lookupRow m cd with
        | some r0 =>
          simp only [hlm]
          have h1 : App.rowSlot m cd c = some (r0.getCat c) := by
            rw [App.rowSlot, hlm]
            rfl
          rw [h1]
        | none =>
          simp only [hlm]
          have h1 : App.rowSlot m cd c = none := by
            rw [App.rowSlot, hlm]
            rfl
          rw [h1, App.rowSlot, lookupRow_append_one, hlm]
          simp [getCat_init]
      · have hm : App.mentionsCode cd it = false := by
          simp only [App.mentionsCode, decide_eq_false_iff_not]
          rintro ⟨h1, _⟩
          exact hcd h1.symm
        rw [hm]
        simp only [Bool.false_eq_true, if_false]
        cases hlm : App.lookupRow m (App.normCode it.company_code) with
        | some r0 => simp only [hlm]
        | none =>
          simp only [hlm]
          rw [App.rowSlot, App.rowSlot, lookupRow_append_one]
          cases hmc : App.lookupRow m cd with
          | some r0 => simp [hmc]
          | none => simp [hmc, if_neg hcd]
    | some c2 =>
      cases hlm : App.lookupRow m (App.normCode it.company_code) with
      | some r0 =>
        simp only [hlm]
        by_cases hcd : cd = App.normCode it.company_code
        · rw [← hcd] at hcode hlm ⊢
          have hrow : App.rowSlot
              (App.updateRow m cd (r0.setCat c2 it.document_url)) cd c =
              some ((r0.setCat c2 it.document_url).getCat c) := by
            rw [App.rowSlot, lookupRow_updateRow_self, hlm]
            rfl
          rw [hrow]
          by_cases hcc : c = c2
          · subst hcc
            have hw : App.writesTo cd c it = true := by
              simp only [App.writesTo, decide_eq_true_eq]
              exact ⟨hcd.symm, hcode, hcl⟩
            rw [hw]
            simp only [if_true, getCat_setCat_same]
          · have hw : App.writesTo cd c it = false := by
              simp only [App.writesTo, decide_eq_false_iff_not]
              rintro ⟨_, _, h3⟩
              rw [hcl] at h3
              exact hcc (Option.some_injective _ h3.symm)
            have hm : App.mentionsCode cd it = true := by
              simp only [App.mentionsCode, decide_eq_true_eq]
              exact ⟨hcd.symm, hcode⟩
            rw [hw, hm]
            simp only [Bool.false_eq_true, if_false, if_true]
            have h1 : App.rowSlot m cd c = some (r0.getCat c) := by
              rw [App.rowSlot, hlm]
              rfl
            rw [h1]
            simp [getCat_setCat_other r0 c c2 it.document_url hcc]
        · have hw : App.writesTo cd c it = false := by
            simp only [App.writesTo, decide_eq_false_iff_not]
            rintro ⟨h1, _, _⟩
            exact hcd h1.symm
          have hm : App.mentionsCode cd it = false := by
            simp only [App.mentionsCode, decide_eq_false_iff_not]
            rintro ⟨h1, _⟩
            exact hcd h1.symm
          rw [hw, hm]
          simp only [Bool.false_eq_true, if_false]
          rw [App.rowSlot, App.rowSlot, lookupRow_updateRow_ne _ _ _ _ hcd]
      | none =>
        simp only [hlm]
        have hl1 : App.lookupRow
            (m ++ [(App.normCode it.company_code,
              App.Row.init (App.normCode it.company_code) it.company_name)])
            (App.normCode it.company_code) =
            some (App.Row.init (App.normCode it.company_code)
              it.company_name) := by
          rw [lookupRow_append_one, hlm]
          simp
        rw [hl1]
        by_cases hcd : cd = App.normCode it.company_code
        · rw [← hcd] at hcode hlm hl1 ⊢
          have hrow : App.rowSlot
              (App.updateRow
                (m ++ [(cd, App.Row.init cd it.company_name)]) cd
                ((App.Row.init cd it.company_name).setCat c2
                  it.document_url)) cd c =
              some (((App.Row.init cd it.company_name).setCat c2
                it.document_url).getCat c) := by
            rw [App.rowSlot, lookupRow_updateRow_self, hl1]
            rfl
          rw [hrow]
          have h0 : App.rowSlot m cd c = none := by
            rw [App.rowSlot, hlm]
            rfl
          by_cases hcc : c = c2
          · subst hcc
            have hw : App.writesTo cd c it = true := by
              simp only [App.writesTo, decide_eq_true_eq]
              exact ⟨hcd.symm, hcode, hcl⟩
            rw [hw]
            simp only [if_true, getCat_setCat_same]
          · have hw : App.writesTo cd c it = false := by
              simp only [App.writesTo, decide_eq_false_iff_not]
              rintro ⟨_, _, h3⟩
              rw [hcl] at h3
              exact hcc (Option.some_injective _ h3.symm)
            have hm : App.mentionsCode cd it = true := by
              simp only [App.mentionsCode, decide_eq_true_eq]
              exact ⟨hcd.symm, hcode⟩
            rw [hw, hm, h0]
            simp only [Bool.false_eq_true, if_false, if_true]
            rw [getCat_setCat_other _ c c2 it.document_url hcc, getCat_init]
        · have hw : App.writesTo cd c it = false := by
            simp only [App.writesTo, decide_eq_false_iff_not]
            rintro ⟨h1, _, _⟩
            exact hcd h1.symm
          have hm : App.mentionsCode cd it = false := by
            simp only [App.mentionsCode, decide_eq_false_iff_not]
            rintro ⟨h1, _⟩
            exact hcd h1.symm
          rw [hw, hm]
          simp only [Bool.false_eq_true, if_false]
          rw [App.rowSlot, App.rowSlot,
            lookupRow_updateRow_ne _ _ _ _ hcd, lookupRow_append_one]
          cases hmc : App.lookupRow m cd with
          | some r0 => simp [hmc]
          | none => simp [hmc, if_neg hcd]

/-- The whole fold: a URL slot after `buildRows`-style folding equals the
last writer's URL, else the pre-existing slot, else `"-"` when the row was
(or got) created, else no row. -/
theorem rowSlot_foldl (items : List App.TdItem) (m : List (String × App.Row))
    (cd : String) (c : App.Category) :
    App.rowSlot (items.foldl App.stepRecord m) cd c =
      match App.lastWriteURL items cd c with
      | some u => some u
      | none =>
        match App.rowSlot m cd c with
        | some s => some s
        | none =>
          if items.any (App.mentionsCode cd) then some "-" else none := by
  induction items generalizing m with
  | nil =>
    simp only [List.foldl_nil, App.lastWriteURL, List.filter_nil,
      List.getLast?_nil, Option.map_none, List.any_nil, Bool.false_eq_true,
      if_false]
    cases h : App.rowSlot m cd c <;> simp [h]
  | cons it rest ih =>
    rw [List.foldl_cons, ih (App.stepRecord m it), lastWriteURL_cons,
      rowSlot_stepRecord, List.any_cons]
    by_cases hw : App.writesTo cd c it = true
    · rw [hw]
      simp only [if_true]
      cases hlw : App.lastWriteURL rest cd c <;> simp [hlw]
    · rw [Bool.not_eq_true] at hw
      rw [hw]
      simp only [Bool.false_eq_true, if_false]
      by_cases hm : App.mentionsCode cd it = true
      · rw [hm]
        simp only [if_true, Bool.true_or]
        cases hlw : App.lastWriteURL rest cd c with
        | some u => simp [hlw]
        | none =>
          simp only [hlw]
          cases hr : App.rowSlot m cd c <;> simp [hr]
      · rw [Bool.not_eq_true] at hm
        rw [hm]
        simp only [Bool.false_eq_true, if_false, Bool.false_or]

/-- C3 counterexample: two records for the same company both classifying
into the Supplementary slot; the code keeps the LAST record's URL
(`http://b`), not the first one's (`http://a`), refuting first-write-wins
as stated. -/
theorem claim_C3_counterexample :
    App.rowSlot (App.buildRows
        [⟨"13010", "X", "補足資料(1)", "http://a"⟩,
         ⟨"13010", "X", "補足資料(2)", "http://b"⟩]) "1301"
        App.Category.SupplementaryMaterial = some "http://b" ∧
    App.classify "補足資料(1)" = some App.Category.SupplementaryMaterial ∧
    App.classify "補足資料(2)" = some App.Category.SupplementaryMaterial ∧
    App.normCode "13010" = "1301" ∧
    ("http://b" : String) ≠ "http://a" := by decide

/-- C3 (amended): last-write-wins per category per code — folding the
ordered records into the per-company row map leaves, in each category slot
of each code's row, the URL of the LAST record in fetch order that
classified into that category for that code (later records overwrite
earlier ones); with no writer the slot holds `"-"` as soon as some record
bears that (nonempty) normalized code, and the row is absent otherwise. -/
theorem claim_C3_amended (items : List App.TdItem) (cd : String)
    (c : App.Category) :
    App.rowSlot (App.buildRows items) cd c =
      match App.lastWriteURL items cd c with
      | some u => some u
      | none =>
        if items.any (App.mentionsCode cd) then some "-" else none := by
  rw [App.buildRows, rowSlot_foldl]
  cases h : App.lastWriteURL items cd c <;>
    simp [h, App.rowSlot, App.lookupRow, List.find?]

/-- C2: classifier precedence law of the full dashboard.  (1) For every
title the assigned category is the first of the four ordered keyword sets
— Supplementary, GuidanceRevision, Explanatory, FinancialStatement — with
a substring match.  (2) In particular a title containing both a
Supplementary keyword and a FinancialStatement keyword classifies as
`SupplementaryMaterial`.  (3) A title matching no set classifies as
`none`, and processing such a record leaves every category slot of its row
absent: the row is either exactly the pre-existing one or freshly
initialised with all four slots `"-"`. -/
theorem claim_C2 :
    (∀ title, App.classify title = App.classifySpec title) ∧
    (∀ title, (∃ kw ∈ App.SUPPL_KW, pyIn kw title = true) →
      (∃ kw ∈ App.TANSHIN_KW, pyIn kw title = true) →
      App.classify title = some App.Category.SupplementaryMaterial) ∧
    (∀ (m : List (String × App.Row)) (it : App.TdItem),
      App.classify it.title = none →
      ∀ cd r, App.lookupRow (App.stepRecord m it) cd = some r →
        App.lookupRow m cd = some r ∨
        (App.lookupRow m cd = none ∧
          ∀ c : App.Category, r.getCat c = "-")) := by
  refine ⟨classify_eq_classifySpec, ?_, ?_⟩
  · rintro title ⟨kw, hm, hp⟩ _
    have h1 : anyKw App.SUPPL_KW title = true := anyKw_of_mem hm hp
    simp [App.classify, h1]
  · intro m it hclass cd r hl
    simp only [App.stepRecord] at hl
    by_cases hcode : App.normCode it.company_code = ""
    · rw [if_pos hcode] at hl
      exact Or.inl hl
    · rw [if_neg hcode] at hl
      simp only [hclass] at hl
      cases hm : App.lookupRow m (App.normCode it.company_code) with
      | some r0 =>
        simp only [hm] at hl
        exact Or.inl hl
      | none =>
        simp only [hm] at hl
        rw [lookupRow_append_one] at hl
        cases hmc : App.lookupRow m cd with
        | some r0 =>
          simp only [hmc] at hl
          exact Or.inl hl
        | none =>
          simp only [hmc] at hl
          by_cases hcd : cd = App.normCode it.company_code
          · rw [if_pos hcd] at hl
            injection hl with h2
            exact Or.inr ⟨rfl, fun c => by rw [← h2]; exact getCat_init _ _ c⟩
          · rw [if_neg hcd] at hl
            cases hl

/-- C2 witness: `classify` at a concrete both-keywords title. -/
theorem claim_C2_witness :
    App.classify "決算短信及び補足資料の訂正" =
      some App.Category.SupplementaryMaterial :=
  claim_C2.2.1 "決算短信及び補足資料の訂正"
    ⟨"補足資料", by decide, by decide⟩ ⟨"決算短信", by decide, by decide⟩

/-- C5: the dividend-yield guard.  The yield is computed only when a
nonzero dividend rate and a nonzero positive price are both present;
a zero or absent price yields an absent field (the division is never
reached, and the total function raises nothing); `rate=10, price=0`
gives absent and `rate=10, price=500` gives `2.0`. -/
theorem claim_C5 :
    (∀ dr p, (App.divYield dr p).isSome = true →
      (∃ r, dr = some r ∧ r ≠ 0) ∧ (∃ q, p = some q ∧ 0 < q)) ∧
    App.divYield (some 10) (some 0) = none ∧
    App.divYield (some 10) none = none ∧
    App.divYield none (some 500) = none ∧
    App.divYield (some 10) (some 500) = some 2 := by
  refine ⟨?_, by simp [App.divYield], rfl, rfl, ?_⟩
  · intro dr p h
    cases dr with
    | none => simp [App.divYield] at h
    | some r =>
      cases p with
      | none => simp [App.divYield] at h
      | some q =>
        by_cases hc : r ≠ 0 ∧ q ≠ 0 ∧ 0 < q
        · exact ⟨⟨r, rfl, hc.1⟩, ⟨q, rfl, hc.2.2⟩⟩
        · simp [App.divYield, hc] at h
  · have hval : (10 : ℚ) / 500 * 100 = 2 := by norm_num
    have hround : pyRound2 2 = 2 := by
      unfold pyRound2 pyRound
      norm_num
    simp only [App.divYield]
    rw [if_pos (by norm_num), hval, hround]

/-- C5 witness: the only-when direction applied at a concrete computed
yield. -/
theorem claim_C5_witness :
    (∃ r, (some (1 : ℚ)) = some r ∧ r ≠ 0) ∧
    (∃ q, (some (1 : ℚ)) = some q ∧ 0 < q) :=
  claim_C5.1 (some 1) (some 1) (by simp [App.divYield])

/-- C10: truthiness of the guard — a present-but-zero dividend rate, and
equally a zero price, leave the yield absent. -/
theorem claim_C10 :
    (∀ p : ℚ, 0 < p → App.divYield (some 0) (some p) = none) ∧
    (∀ r : ℚ, App.divYield (some r) (some 0) = none) := by
  constructor
  · intro p _
    simp [App.divYield]
  · intro r
    simp [App.divYield]

/-- C10 witness: concrete zero-rate and zero-price rows. -/
theorem claim_C10_witness :
    App.divYield (some 0) (some 1) = none ∧
    App.divYield (some 7) (some 0) = none :=
  ⟨claim_C10.1 1 zero_lt_one, claim_C10.2 7⟩

/-- C6: listing-fetch error containment — a failed fetch (the `except`
branch) and a zero-item payload both produce the empty DataFrame, and the
embedded function is total (nothing propagates past the boundary). -/
theorem claim_C6 :
    App.fetch_tdnet_list none = [] ∧
    ∀ items, items = [] → App.fetch_tdnet_list (some items) = [] := by
  constructor
  · rfl
  · rintro items rfl
    rfl

/-- C6 witness: the zero-items case at the concrete empty payload. -/
theorem claim_C6_witness : App.fetch_tdnet_list (some []) = [] :=
  claim_C6.2 [] rfl

/-- C9: the simple viewer checks its keyword sets in the reversed order
決算短信 → 決算説明資料 → 補足説明資料 with default その他: (1) the
classifier equals first-match over that ordered list; (2) any title with a
FinancialStatement keyword is 決算短信 regardless of other keywords;
(3) a title matching none of the sets is classified その他; (4) such a
record is still kept in the company-scoped result (the loop appends it
with its category). -/
theorem claim_C9 :
    (∀ title, Backup.classifyB title = Backup.classifyBSpec title) ∧
    (∀ title, (∃ kw ∈ Backup.KESSAN_KEYWORDS, pyIn kw title = true) →
      Backup.classifyB title = "決算短信") ∧
    (∀ title,
      anyKw Backup.KESSAN_KEYWORDS title = false →
      anyKw Backup.SETSUMAI_KEYWORDS title = false →
      anyKw Backup.HOSOKU_KEYWORDS title = false →
      Backup.classifyB title = "その他") ∧
    (∀ code5 seen (it : Backup.BItem) rest,
      it.company_code = code5 →
      ¬(it.title = "" ∨ it.document_url = "") →
      it.document_url ∉ seen →
      Backup.fyGo code5 seen (it :: rest) =
        Backup.mkDisclosure it ::
          Backup.fyGo code5 (it.document_url :: seen) rest) := by
  refine ⟨?_, ?_, ?_, ?_⟩
  · intro title
    unfold Backup.classifyB Backup.classifyBSpec Backup.orderedKeywordSetsB
    cases h1 : anyKw Backup.KESSAN_KEYWORDS title <;>
      cases h2 : anyKw Backup.SETSUMAI_KEYWORDS title <;>
        cases h3 : anyKw Backup.HOSOKU_KEYWORDS title <;>
          simp [List.find?, h1, h2, h3]
  · rintro title ⟨kw, hm, hp⟩
    have h1 := anyKw_of_mem hm hp
    simp [Backup.classifyB, h1]
  · intro title h1 h2 h3
    simp [Backup.classifyB, h1, h2, h3]
  · intro code5 seen it rest hc ht hu
    rw [Backup.fyGo, if_neg (by simp [hc]), if_neg ht, if_neg hu]

/-- C9 witness: a title holding both a FinancialStatement and a
Supplementary keyword classifies 決算短信, applied concretely. -/
theorem claim_C9_witness :
    Backup.classifyB "四半期決算短信・補足説明資料" = "決算短信" :=
  claim_C9.2.1 "四半期決算短信・補足説明資料"
    ⟨"決算短信", by decide, by decide⟩

/-- The resolver loop equals filter-then-first-match-per-code dedup, for
any starting `seen` set. -/
theorem scGo_eq_dedup (query : String) (items : List Backup.BItem)
    (seen : List String) :
    Backup.scGo query seen items =
      (Backup.dedupByCodeKeepFirst seen
          (items.filter (fun it => Backup.scValid it && Backup.scMatch query it))).map
        (fun it => ⟨pyTake 4 it.company_code, it.company_name⟩) := by
  induction items generalizing seen with
  | nil => rfl
  | cons it rest ih =>
    rw [Backup.scGo, List.filter_cons]
    by_cases hv : Backup.scValid it = true
    · rw [if_neg (by simp [hv])]
      by_cases hs : pyTake 4 it.company_code ∈ seen
      · rw [if_pos hs]
        by_cases hq : Backup.scMatch query it = true
        · rw [if_pos (by simp [hv, hq]), Backup.dedupByCodeKeepFirst,
            if_pos hs]
          exact ih seen
        · rw [if_neg (by simp [hq])]
          exact ih seen
      · rw [if_neg hs]
        by_cases hq : Backup.scMatch query it = true
        · rw [if_pos hq, if_pos (by simp [hv, hq]),
            Backup.dedupByCodeKeepFirst, if_neg hs, List.map_cons]
          rw [ih (pyTake 4 it.company_code :: seen)]
        · rw [if_neg hq, if_neg (by simp [hq])]
          exact ih seen
    · rw [if_pos (by simpa using hv), if_neg (by simp [hv])]
      exact ih seen

/-- C8: the company resolver scans the day's listing, matches the query
case-insensitively as a substring of the company name, normalizes codes to
their 4-character head, and returns one entry per distinct normalized code
— the first matching record wins and listing order is preserved (the
filter-then-dedup-keep-first characterisation); a failed fetch and a
matchless listing both yield the empty sequence, never an error. -/
theorem claim_C8 :
    (∀ query, Backup.search_company_by_name query none = []) ∧
    (∀ query items,
      (∀ it ∈ items, ¬(Backup.scValid it = true ∧ Backup.scMatch query it = true)) →
      Backup.search_company_by_name query (some items) = []) ∧
    (∀ query items,
      Backup.search_company_by_name query (some items) =
        Backup.resolveSpec query items) := by
  refine ⟨fun _ => rfl, ?_, ?_⟩
  · intro query items h
    show Backup.scGo query [] items = []
    rw [scGo_eq_dedup]
    have hf : items.filter
        (fun it => Backup.scValid it && Backup.scMatch query it) = [] := by
      rw [List.filter_eq_nil_iff]
      intro it hit
      simpa using h it hit
    rw [hf]
    rfl
  · intro query items
    exact scGo_eq_dedup query items []

/-- C8 witness: a listing where nothing matches the query resolves to the
empty sequence. -/
theorem claim_C8_witness :
    Backup.search_company_by_name "toyota"
      (some [⟨"72030", "ホンダ(株)", "t", "u", "d"⟩]) = [] :=
  claim_C8.2.1 "toyota" [⟨"72030", "ホンダ(株)", "t", "u", "d"⟩]
    (by decide)

/-- The company-scoped loop equals company-filter-then-URL-dedup, for any
starting `seen` set. -/
theorem fyGo_eq_dedup (code5 : String) (items : List Backup.BItem)
    (seen : List String) :
    Backup.fyGo code5 seen items =
      (Backup.dedupByUrlKeepFirst seen
          (items.filter (Backup.fyKeeps code5))).map Backup.mkDisclosure := by
  induction items generalizing seen with
  | nil => rfl
  | cons it rest ih =>
    rw [Backup.fyGo, List.filter_cons]
    by_cases hc : it.company_code = code5
    · rw [if_neg (fun h => h hc)]
      by_cases he : it.title = "" ∨ it.document_url = ""
      · have hk : ¬(Backup.fyKeeps code5 it = true) := by
          simp only [Backup.fyKeeps, decide_eq_true_eq]
          rintro ⟨-, hne⟩
          exact hne he
        rw [if_pos he, if_neg hk]
        exact ih seen
      · have hk : Backup.fyKeeps code5 it = true := by
          simp only [Backup.fyKeeps, decide_eq_true_eq]
          exact ⟨hc, he⟩
        rw [if_neg he, if_pos hk]
        by_cases hs : it.document_url ∈ seen
        · rw [if_pos hs, Backup.dedupByUrlKeepFirst, if_pos hs]
          exact ih seen
        · rw [if_neg hs, Backup.dedupByUrlKeepFirst, if_neg hs,
            List.map_cons]
          rw [ih (it.document_url :: seen)]
    · have hk : ¬(Backup.fyKeeps code5 it = true) := by
        simp only [Backup.fyKeeps, decide_eq_true_eq]
        rintro ⟨h1, -⟩
        exact hc h1
      rw [if_pos hc, if_neg hk]
      exact ih seen

/-- Every URL in the loop's output is fresh with respect to `seen`, and
the output's URLs are pairwise distinct. -/
theorem fyGo_urls_nodup (code5 : String) (items : List Backup.BItem)
    (seen : List String) :
    ((Backup.fyGo code5 seen items).map Backup.Disclosure.url).Nodup ∧
    ∀ d ∈ Backup.fyGo code5 seen items, d.url ∉ seen := by
  induction items generalizing seen with
  | nil => exact ⟨List.nodup_nil, fun d hd => absurd hd (List.not_mem_nil d)⟩
  | cons it rest ih =>
    rw [Backup.fyGo]
    by_cases hc : it.company_code ≠ code5
    · rw [if_pos hc]
      exact ih seen
    · rw [if_neg hc]
      by_cases he : it.title = "" ∨ it.document_url = ""
      · rw [if_pos he]
        exact ih seen
      · rw [if_neg he]
        by_cases hs : it.document_url ∈ seen
        · rw [if_pos hs]
          exact ih seen
        · rw [if_neg hs]
          obtain ⟨ihn, ihf⟩ := ih (it.document_url :: seen)
          refine ⟨?_, ?_⟩
          · rw [List.map_cons, List.nodup_cons]
            refine ⟨?_, ihn⟩
            intro hmem
            obtain ⟨d, hd, hdu⟩ := List.mem_map.mp hmem
            exact ihf d hd (by rw [hdu]; exact List.mem_cons_self _ _)
          · intro d hd
            rcases List.mem_cons.mp hd with h | h
            · rw [h]
              exact hs
            · intro habs
              exact ihf d h (List.mem_cons_of_mem _ habs)

/-- C7 counterexample: within the trailing window, a record of another
company (`99990`) publishes URL `u` on the first day and the target
company (`13010`) publishes the same URL `u` on a later day.  The claim
says a record whose URL was already seen under any date in the window is
dropped before the company filter, which would leave the target-company
result empty; the code filters by company first and keeps the record, so
the two pipelines disagree on this input. -/
theorem claim_C7_counterexample :
    Backup.fetch_yanoshin_disclosures "1301"
        [[⟨"99990", "Y", "決算短信A", "u", "d1"⟩],
         [⟨"13010", "X", "決算短信B", "u", "d2"⟩]] =
      some [⟨"決算短信B", "u", "d2", "決算短信", "X"⟩] ∧
    Backup.claimPipelineC7 "1301"
        [[⟨"99990", "Y", "決算短信A", "u", "d1"⟩],
         [⟨"13010", "X", "決算短信B", "u", "d2"⟩]] = [] ∧
    Backup.code5digit "1301" = "13010" := by decide

/-- C7 (amended): the company-scoped fetch concatenates the trailing
window's listings, FILTERS to the target company's records (with nonempty
title and URL) FIRST, and then deduplicates by document URL among those,
keeping the first occurrence — so two target-company records sharing a
`documentUrl` on different dates of the window still collapse to one, and
the result never repeats a URL, but a URL seen only under another company
does not suppress a target-company record. -/
theorem claim_C7_amended (stock_code : String)
    (dayBatches : List (List Backup.BItem)) :
    Backup.fyGo (Backup.code5digit stock_code) [] dayBatches.flatten =
      (Backup.dedupByUrlKeepFirst []
          (dayBatches.flatten.filter
            (Backup.fyKeeps (Backup.code5digit stock_code)))).map
        Backup.mkDisclosure ∧
    ((Backup.fyGo (Backup.code5digit stock_code) []
        dayBatches.flatten).map Backup.Disclosure.url).Nodup :=
  ⟨fyGo_eq_dedup _ _ _, (fyGo_urls_nodup _ _ _).1⟩

/-- The `prev` lookup on the deduplicated sorted frame whose head is
`latest`: none for `1Q`/`FY`, otherwise the first same-fiscal-year sample
among the remaining entries (the second element of the same-FY slice,
whose first element is `latest` itself). -/
theorem computePrev_cons (latest : App.FinSample)
    (rest : List App.FinSample) :
    App.computePrev (latest :: rest) latest =
      if latest.CurPerType = "1Q" ∨ latest.CurPerType = "FY" then none
      else (rest.filter (fun s => s.CurFYSt = latest.CurFYSt)).head? := by
  unfold App.computePrev
  by_cases hp : latest.CurPerType = "1Q" ∨ latest.CurPerType = "FY"
  · rw [if_pos hp, if_pos hp]
  · rw [if_neg hp, if_neg hp]
    rw [List.filter_cons_of_pos (by simp)]
    cases hfl : rest.filter (fun s => s.CurFYSt = latest.CurFYSt) with
    | nil => rfl
    | cons x xs =>
      have h2 : 2 ≤ (latest :: x :: xs).length := by
        simp [Nat.le_add_left]
      rw [if_pos h2]
      rfl

/-- The per-metric loop body, with `prev` as the code computes it, equals
the per-metric formula of the amended claim C1. -/
theorem metricOut_eq_perClaim (latest : App.FinSample)
    (rest : List App.FinSample) (getM : App.FinSample → Option ℤ) :
    App.metricOut latest.CurPerType
        (App.computePrev (latest :: rest) latest) getM latest =
      App.metricPerClaim latest rest getM := by
  rw [computePrev_cons]
  unfold App.metricOut App.metricPerClaim
  cases hm : getM latest with
  | none => rfl
  | some cur =>
    by_cases hp : latest.CurPerType = "1Q" ∨ latest.CurPerType = "FY"
    · simp only [if_pos hp]
    · simp only [if_neg hp]

/-- C1 counterexample: a single `1Q` sample with `Sales = 1_900_000` yen.
The exact quotient `1_900_000 / 1_000_000 = 1.9` rounds to `2`, but the
code computes `int(cur / 1_000_000) = 1` (truncation toward zero), so the
output is `1`, not `round(current.metric / 1_000_000) = 2` as the claim
states. -/
theorem claim_C1_counterexample :
    App.reconcileQuarter [⟨1, "1Q", "F", some 1900000, none, none, none⟩] =
      some ⟨some 1, none, none, none⟩ ∧
    pyRoundDiv 1900000 1000000 = 2 ∧
    (1 : ℤ) ≠ 2 := by decide

/-- C1 (amended): quarterly reconciliation with truncation instead of
rounding.  Whenever the deduplicated samples (latest `DiscDate` kept per
distinct `(CurPerType, CurFYSt)` pair, sorted by `DiscDate` descending)
have a current sample, each of the four metrics is: `int(cur/1_000_000)`
(exact quotient truncated toward zero) when the period is `1Q` or `FY`;
otherwise `int((cur - prev)/1_000_000)` against the latest same-fiscal-
year sample among the rest when one exists with a numeric metric;
`int(cur/1_000_000)` as fallback when no previous exists or its metric is
non-numeric; and absent when the current metric is absent. -/
theorem claim_C1_amended (samples : List App.FinSample)
    (latest : App.FinSample) (rest : List App.FinSample)
    (h : App.df_fin_sorted samples = latest :: rest) :
    App.reconcileQuarter samples =
      some ⟨App.metricPerClaim latest rest App.FinSample.Sales,
            App.metricPerClaim latest rest App.FinSample.OP,
            App.metricPerClaim latest rest App.FinSample.OdP,
            App.metricPerClaim latest rest App.FinSample.NP⟩ := by
  unfold App.reconcileQuarter
  rw [h]
  simp only [metricOut_eq_perClaim]

/-- C1 witness: a `2Q` current sample (`Sales = 300_000_000`) against a
`1Q` previous of the same fiscal year (`Sales = 120_000_000`) yields the
standalone quarter `180` (millions); the absent metrics stay absent and a
present current metric with a non-numeric previous falls back to the
direct value. -/
theorem claim_C1_amended_witness :
    App.reconcileQuarter
        [⟨2, "2Q", "F", some 300000000, none, none, some 500⟩,
         ⟨1, "1Q", "F", some 120000000, none, none, none⟩] =
      some ⟨some 180, none, none, some 0⟩ :=
  (claim_C1_amended
      [⟨2, "2Q", "F", some 300000000, none, none, some 500⟩,
       ⟨1, "1Q", "F", some 120000000, none, none, none⟩]
      ⟨2, "2Q", "F", some 300000000, none, none, some 500⟩
      [⟨1, "1Q", "F", some 120000000, none, none, none⟩]
      (by decide)).trans (by decide)

/-- A nonempty list's `headD` is a member. -/
theorem headD_mem_of_ne_nil {K : Type} (l : List K) (d : K) (h : l ≠ []) :
    l.headD d ∈ l := by
  cases l with
  | nil => exact absurd rfl h
  | cons a l2 => exact List.mem_cons_self a l2

/-- Filtering a sorted list with an upward-closed predicate removes a
head portion: the list splits into rejected elements followed by the
filter result. -/
theorem sorted_filter_decomp {K : Type} [LinearOrderedCommRing K]
    (p : K → Bool) (hup : ∀ a b : K, a ≤ b → p a = true → p b = true) :
    ∀ l : List K, l.Sorted (· ≤ ·) →
      ∃ l0, l0 ++ l.filter p = l ∧ ∀ t ∈ l0, p t = false := by
  intro l
  induction l with
  | nil => exact fun _ => ⟨[], rfl, by simp⟩
  | cons x xs ih =>
    intro hs
    rw [List.sorted_cons] at hs
    by_cases hx : p x = true
    · have hall : xs.filter p = xs :=
        List.filter_eq_self.mpr (fun b hb => hup x b (hs.1 b hb) hx)
      refine ⟨[], ?_, by simp⟩
      rw [List.filter_cons_of_pos hx, hall, List.nil_append]
    · obtain ⟨l0, hl0, hf⟩ := ih hs.2
      refine ⟨x :: l0, ?_, ?_⟩
      · rw [List.filter_cons_of_neg hx, List.cons_append, hl0]
      · intro t ht
        rcases List.mem_cons.mp ht with h | h
        · rw [h, ← Bool.not_eq_true]
          exact hx
        · exact hf t h

/-- The window predicate of `rlWait` is upward closed. -/
theorem wpred_upward {K : Type} [LinearOrderedCommRing K] (now : K) :
    ∀ a b : K, a ≤ b →
      decide (now - a < 60) = true → decide (now - b < 60) = true := by
  intro a b hab ha
  rw [decide_eq_true_eq] at ha ⊢
  linarith

/-- One `wait` call preserves the limiter invariant, with the grant time
as the new arrival lower bound; the grant never precedes the arrival. -/
theorem rlWait_inv {K : Type} [LinearOrderedCommRing K] {g ts : List K}
    {lb now : K} (inv : App.RLInv g ts lb) (hnow : lb ≤ now) :
    App.RLInv (g ++ [(App.rlWait ts now).1]) (App.rlWait ts now).2
      (App.rlWait ts now).1 ∧ now ≤ (App.rlWait ts now).1 := by
  obtain ⟨cut, hcut, hcutf⟩ :=
    sorted_filter_decomp _ (wpred_upward now) ts inv.tsSorted
  obtain ⟨pre0, hpre0⟩ := inv.suff
  have hts2w : ∀ t ∈ ts.filter (fun t => decide (now - t < 60)),
      now - t < 60 := by
    intro t ht
    have := (List.mem_filter.mp ht).2
    rwa [decide_eq_true_eq] at this
  have hcutle : ∀ t ∈ cut, t + 60 ≤ now := by
    intro t ht
    have := hcutf t ht
    rw [← Bool.not_eq_true, decide_eq_true_eq] at this
    linarith [not_lt.mp this]
  have htsub : ∀ t ∈ ts, t ∈ g := fun t ht => inv.suff.subset ht
  have htle : ∀ t ∈ ts, t ≤ now :=
    fun t ht => le_trans (inv.ub t (htsub t ht)) hnow
  have hts2sorted :
      (ts.filter (fun t => decide (now - t < 60))).Sorted (· ≤ ·) :=
    inv.tsSorted.sublist (List.filter_sublist ts)
  have hts2len : (ts.filter (fun t => decide (now - t < 60))).length ≤ 5 := by
    rcases Nat.lt_or_ge ts.length 6 with h6 | h6
    · have := List.length_filter_le (fun t => decide (now - t < 60)) ts
      omega
    · have h66 : ts.length = 6 := le_antisymm inv.lenle h6
      have hsix := inv.six h66
      cases hts : ts with
      | nil => rw [hts] at h66; cases h66
      | cons hd tl =>
        have hhd : ts.headD 0 = hd := by rw [hts]; rfl
        have hfar : hd + 61 ≤ lb := hhd ▸ hsix
        have hdrop : ¬(decide (now - hd < 60) = true) := by
          rw [decide_eq_true_eq]
          intro habs
          linarith
        have htl : tl.length = 5 := by
          rw [hts] at h66
          simpa using h66
        rw [List.filter_cons, if_neg hdrop]
        calc (tl.filter (fun t => decide (now - t < 60))).length
            ≤ tl.length := List.length_filter_le _ _
          _ = 5 := htl
  by_cases hfull :
      5 ≤ (ts.filter (fun t => decide (now - t < 60))).length
  · -- the window is full: the caller sleeps and is granted at
    -- oldest-remaining + 61
    have h5 : (ts.filter (fun t => decide (now - t < 60))).length = 5 :=
      le_antisymm hts2len hfull
    have hne : ts.filter (fun t => decide (now - t < 60)) ≠ [] := by
      intro habs
      rw [habs] at h5
      cases h5
    have hw1 : (App.rlWait ts now).1 =
        now + (60 - (now -
          (ts.filter (fun t => decide (now - t < 60))).headD 0) + 1) := by
      rw [App.rlWait]
      simp only [if_pos hfull]
    have hw2 : (App.rlWait ts now).2 =
        ts.filter (fun t => decide (now - t < 60)) ++
          [(App.rlWait ts now).1] := by
      rw [App.rlWait]
      simp only [if_pos hfull]
    have hheadw : now -
        (ts.filter (fun t => decide (now - t < 60))).headD 0 < 60 :=
      hts2w _ (headD_mem_of_ne_nil _ 0 hne)
    have hgrant : (App.rlWait ts now).1 =
        (ts.filter (fun t => decide (now - t < 60))).headD 0 + 61 := by
      rw [hw1]
      ring
    have hg1 : now ≤ (App.rlWait ts now).1 := by
      rw [hw1]
      linarith
    refine ⟨⟨?_, ?_, ?_, ?_, ?_, ?_, ?_⟩, hg1⟩
    · -- suffix
      rw [hw2]
      exact ⟨pre0 ++ cut, by
        rw [List.append_assoc, ← List.append_assoc cut, hcut,
          ← List.append_assoc, hpre0]⟩
    · -- upper bound
      intro t ht
      rcases List.mem_append.mp ht with h | h
      · exact le_trans (le_trans (inv.ub t h) hnow) hg1
      · rw [List.mem_singleton.mp h]
    · -- far
      intro pre hpre t ht
      rw [hw2, ← List.append_assoc] at hpre
      have hpre2 : pre ++ ts.filter (fun t => decide (now - t < 60)) = g :=
        List.append_cancel_right hpre
      have hdecomp : (pre0 ++ cut) ++
          ts.filter (fun t => decide (now - t < 60)) = g := by
        rw [List.append_assoc, hcut, hpre0]
      have hpp : pre = pre0 ++ cut :=
        List.append_cancel_right (hpre2.trans hdecomp.symm)
      rw [hpp] at ht
      rcases List.mem_append.mp ht with h | h
      · exact le_trans (le_trans (inv.far pre0 hpre0 t h) hnow) hg1
      · exact le_trans (hcutle t h) hg1
    · -- length
      rw [hw2, List.length_append, h5, List.length_singleton]
    · -- six
      rw [hw2]
      intro _
      cases h2 : ts.filter (fun t => decide (now - t < 60)) with
      | nil => exact absurd h2 hne
      | cons h2h t2 =>
        have hh : ((h2h :: t2) ++
            [(App.rlWait ts now).1]).headD 0 = h2h := rfl
        rw [hh, hgrant, h2]
        rfl
    · -- sorted
      rw [hw2]
      refine List.pairwise_append.mpr ⟨hts2sorted, List.sorted_singleton _, ?_⟩
      intro a ha b hb
      rw [List.mem_singleton.mp hb]
      exact le_trans (htle a (List.mem_of_mem_filter ha)) hg1
    · -- window bound
      intro x
      set G := (App.rlWait ts now).1 with hG
      rw [← hpre0, ← hcut]
      by_cases hing : App.inWindow x G = true
      · have hxg : x < G ∧ G ≤ x + 60 := by
          rw [App.inWindow, decide_eq_true_eq] at hing
          exact hing
        have hhx : (ts.filter (fun t => decide (now - t < 60))).headD 0
            ≤ x := by
          have h1 := hxg.2
          rw [hgrant] at h1
          linarith
        have hpre0w : ∀ t ∈ pre0, ¬(App.inWindow x t = true) := by
          intro t ht
          rw [App.inWindow, decide_eq_true_eq]
          rintro ⟨hxt, -⟩
          have h1 : t + 60 ≤ lb := inv.far pre0 hpre0 t ht
          linarith
        have hcutw : ∀ t ∈ cut, ¬(App.inWindow x t = true) := by
          intro t ht
          rw [App.inWindow, decide_eq_true_eq]
          rintro ⟨hxt, -⟩
          have h1 : t + 60 ≤ now := hcutle t ht
          linarith
        cases h2 : ts.filter (fun t => decide (now - t < 60)) with
        | nil => exact absurd h2 hne
        | cons h2h t2 =>
          have hhw : ¬(App.inWindow x h2h = true) := by
            rw [App.inWindow, decide_eq_true_eq]
            rintro ⟨hxt, -⟩
            rw [h2] at hhx
            exact absurd hxt (not_lt.mpr hhx)
          have ht2 : t2.length = 4 := by
            rw [h2] at h5
            simpa using h5
          simp only [List.filter_append, List.length_append]
          rw [List.filter_eq_nil_iff.mpr (fun t ht => hpre0w t ht),
            List.filter_eq_nil_iff.mpr (fun t ht => hcutw t ht),
            List.filter_cons_of_neg hhw]
          have hlen1 : (t2.filter (App.inWindow x)).length ≤ 4 :=
            le_trans (List.length_filter_le _ _) (le_of_eq ht2)
          have hlen2 : (([G]).filter (App.inWindow x)).length ≤ 1 :=
            le_trans (List.length_filter_le _ _) (by simp)
          simp only [List.length_nil]
          omega
      · rw [Bool.not_eq_true] at hing
        rw [List.filter_append, List.filter_singleton, hing,
          Bool.cond_false]
        have hwnd := inv.wnd x
        rw [← hpre0, ← hcut] at hwnd
        simpa using hwnd
  · -- below quota: the call is granted immediately at `now`
    have hw1 : (App.rlWait ts now).1 = now := by
      rw [App.rlWait]
      simp only [if_neg hfull]
    have hw2 : (App.rlWait ts now).2 =
        ts.filter (fun t => decide (now - t < 60)) ++ [now] := by
      rw [App.rlWait]
      simp only [if_neg hfull]
    have h4 : (ts.filter (fun t => decide (now - t < 60))).length ≤ 4 := by
      omega
    refine ⟨⟨?_, ?_, ?_, ?_, ?_, ?_, ?_⟩, le_of_eq hw1.symm⟩
    · rw [hw2, hw1]
      exact ⟨pre0 ++ cut, by
        rw [List.append_assoc, ← List.append_assoc cut, hcut,
          ← List.append_assoc, hpre0]⟩
    · intro t ht
      rw [hw1]
      rcases List.mem_append.mp ht with h | h
      · exact le_trans (inv.ub t h) hnow
      · rw [List.mem_singleton.mp h]
        exact le_of_eq hw1
    · intro pre hpre t ht
      rw [hw1]
      rw [hw1, hw2, ← List.append_assoc] at hpre
      have hpre2 : pre ++ ts.filter (fun t => decide (now - t < 60)) = g :=
        List.append_cancel_right hpre
      have hdecomp : (pre0 ++ cut) ++
          ts.filter (fun t => decide (now - t < 60)) = g := by
        rw [List.append_assoc, hcut, hpre0]
      have hpp : pre = pre0 ++ cut :=
        List.append_cancel_right (hpre2.trans hdecomp.symm)
      rw [hpp] at ht
      rcases List.mem_append.mp ht with h | h
      · exact le_trans (inv.far pre0 hpre0 t h) hnow
      · exact hcutle t h
    · rw [hw2, List.length_append]
      simp only [List.length_singleton]
      omega
    · rw [hw2]
      intro habs
      rw [List.length_append, List.length_singleton] at habs
      omega
    · rw [hw2]
      refine List.pairwise_append.mpr ⟨hts2sorted, List.sorted_singleton _, ?_⟩
      intro a ha b hb
      rw [List.mem_singleton.mp hb]
      exact htle a (List.mem_of_mem_filter ha)
    · intro x
      rw [hw1, ← hpre0, ← hcut]
      by_cases hing : App.inWindow x now = true
      · have hxg : x < now ∧ now ≤ x + 60 := by
          rw [App.inWindow, decide_eq_true_eq] at hing
          exact hing
        have hpre0w : ∀ t ∈ pre0, ¬(App.inWindow x t = true) := by
          intro t ht
          rw [App.inWindow, decide_eq_true_eq]
          rintro ⟨hxt, -⟩
          have h1 : t + 60 ≤ lb := inv.far pre0 hpre0 t ht
          linarith
        have hcutw : ∀ t ∈ cut, ¬(App.inWindow x t = true) := by
          intro t ht
          rw [App.inWindow, decide_eq_true_eq]
          rintro ⟨hxt, -⟩
          have h1 : t + 60 ≤ now := hcutle t ht
          linarith
        simp only [List.filter_append, List.length_append]
        rw [List.filter_eq_nil_iff.mpr (fun t ht => hpre0w t ht),
          List.filter_eq_nil_iff.mpr (fun t ht => hcutw t ht)]
        have hlen1 : ((ts.filter
            (fun t => decide (now - t < 60))).filter
              (App.inWindow x)).length ≤ 4 :=
          le_trans (List.length_filter_le _ _) h4
        have hlen2 : (([now]).filter (App.inWindow x)).length ≤ 1 :=
          le_trans (List.length_filter_le _ _) (by simp)
        simp only [List.length_nil]
        omega
      · rw [Bool.not_eq_true] at hing
        rw [List.filter_append, List.filter_singleton, hing,
          Bool.cond_false]
        have hwnd := inv.wnd x
        rw [← hpre0, ← hcut] at hwnd
        simpa using hwnd

/-- A whole admissible run preserves the invariant and grants every
call. -/
theorem rlRun_inv {K : Type} [LinearOrderedCommRing K] :
    ∀ (ns : List K) {g ts : List K} {lb : K}, App.RLInv g ts lb →
      App.rlAdmissible lb ts ns = true →
      (App.rlRun ts ns).2.length = ns.length ∧
      ∃ lb2 tsf, App.RLInv (g ++ (App.rlRun ts ns).2) tsf lb2 := by
  intro ns
  induction ns with
  | nil =>
    intro g ts lb inv _
    exact ⟨rfl, lb, ts, by simpa [App.rlRun] using inv⟩
  | cons n ns2 ih =>
    intro g ts lb inv hadm
    simp only [App.rlAdmissible, Bool.and_eq_true, decide_eq_true_eq] at hadm
    obtain ⟨hle, hadm2⟩ := hadm
    obtain ⟨inv2, -⟩ := rlWait_inv inv hle
    obtain ⟨hlen, lb2, tsf, hinv⟩ := ih inv2 hadm2
    constructor
    · simp only [App.rlRun, List.length_cons, hlen]
    · refine ⟨lb2, tsf, ?_⟩
      simpa [App.rlRun, List.append_assoc] using hinv

/-- C4: rolling-window invariant of the rate limiter
(`maxCalls = 5`, `periodSeconds = 60`), over any linearly ordered
commutative ring of timestamps.  (1) For every admissible sequence of
`wait()` calls starting from the empty state, every call is granted (none
dropped or rejected), and no rolling 60-second window — half-open
`(x, x+60]`, the window notion the limiter itself uses — contains more
than 5 recorded grant timestamps.  (2) Whenever a call finds the window
full (5 retained timestamps), the computed suspension is
`waitSeconds = 60 - (now - oldestRemaining) + 1`, it is never negative,
and the caller is then granted (its grant time recorded). -/
theorem claim_C4 {K : Type} [LinearOrderedCommRing K] :
    (∀ (lb : K) (ns : List K), App.rlAdmissible lb [] ns = true →
      (App.rlRun ([] : List K) ns).2.length = ns.length ∧
      ∀ x : K, ((App.rlRun ([] : List K) ns).2.filter
          (App.inWindow x)).length ≤ 5) ∧
    (∀ (ts : List K) (now : K),
      5 ≤ (ts.filter (fun t => decide (now - t < 60))).length →
      0 ≤ 60 - (now -
        (ts.filter (fun t => decide (now - t < 60))).headD 0) + 1 ∧
      (App.rlWait ts now).1 = now + (60 - (now -
        (ts.filter (fun t => decide (now - t < 60))).headD 0) + 1) ∧
      (App.rlWait ts now).2 =
        ts.filter (fun t => decide (now - t < 60)) ++
          [(App.rlWait ts now).1]) := by
  constructor
  · intro lb ns hadm
    have inv0 : App.RLInv ([] : List K) [] lb := by
      refine ⟨⟨[], rfl⟩, by simp, ?_, by simp, ?_, List.sorted_nil,
        fun x => by simp⟩
      · intro pre hp
        rw [List.append_nil] at hp
        subst hp
        simp
      · intro h
        simp at h
    obtain ⟨hlen, lb2, tsf, hinv⟩ := rlRun_inv ns inv0 hadm
    refine ⟨hlen, fun x => ?_⟩
    have hwnd := hinv.wnd x
    simpa using hwnd
  · intro ts now hfull
    have hne : ts.filter (fun t => decide (now - t < 60)) ≠ [] := by
      intro habs
      rw [habs] at hfull
      simp at hfull
    have hheadw : now -
        (ts.filter (fun t => decide (now - t < 60))).headD 0 < 60 := by
      have hmem := headD_mem_of_ne_nil
        (ts.filter (fun t => decide (now - t < 60))) 0 hne
      have := (List.mem_filter.mp hmem).2
      rwa [decide_eq_true_eq] at this
    refine ⟨by linarith, ?_, ?_⟩
    · rw [App.rlWait]
      simp only [if_pos hfull]
    · rw [App.rlWait]
      simp only [if_pos hfull]

/-- C4 witness: six back-to-back calls at time 0 over integer time — all
six are granted, and the window `(-1, 59]` holds only the first five
grants. -/
theorem claim_C4_witness :
    (App.rlRun ([] : List ℤ) [0, 0, 0, 0, 0, 0]).2.length = 6 ∧
    ((App.rlRun ([] : List ℤ) [0, 0, 0, 0, 0, 0]).2.filter
        (App.inWindow (-1 : ℤ))).length ≤ 5 := by
  have h := claim_C4.1 (0 : ℤ) [0, 0, 0, 0, 0, 0] (by decide)
  exact ⟨h.1, h.2 (-1)⟩

end TdnetMonitor
